import Mathlib

/-!
Verification development for the JSON adapter of `reqwest-websocket`
(`src/json.rs`).

The adapter attaches three operations to the host `Message` enum:
`Message::text_from_json`, `Message::binary_from_json` and `Message::json`,
each a delegation to the `serde_json` library plus error conversion.

The `Message` enum, the umbrella `Error` type and the `serde_json` library
are not part of the given source file, so they are modelled from the spec:
a JSON value tree (`SValue`, the analogue of the serde data model restricted
to integer numbers), a renderer and parser for JSON text, and a UTF-8
encoder/decoder relating text bodies to binary bodies.  JSON numbers are
modelled as integers (floating point is out of scope).
-/

namespace RWJson

/-- Modelled from the spec: a serde map key.  The serializer only accepts
string keys; an integer key is the spec's example of a value "the serializer
cannot represent as JSON object keys". -/
inductive SKey where
  | str (s : String)
  | int (n : Int)
deriving DecidableEq

/-- Modelled from the spec: the serde data model (restricted to integer
numbers), i.e. the image of any value implementing the serialization
capability.  Maps may carry non-string keys, which is the serialization
failure case named by the source's doc comment. -/
inductive SValue where
  | null
  | bool (b : Bool)
  | num (n : Int)
  | str (s : String)
  | arr (elems : List SValue)
  | map (kvs : List (SKey × SValue))

mutual

/-- Whether every map key occurring in the value is a string: exactly the
condition under which `serde_json` serialization succeeds. -/
def keysOk : SValue → Bool
  | .null => true
  | .bool _ => true
  | .num _ => true
  | .str _ => true
  | .arr xs => keysOkElems xs
  | .map kvs => keysOkMembers kvs

def keysOkElems : List SValue → Bool
  | [] => true
  | x :: xs => keysOk x && keysOkElems xs

def keysOkMembers : List (SKey × SValue) → Bool
  | [] => true
  | (k, v) :: rest =>
    (match k with | .str _ => true | .int _ => false) && keysOk v && keysOkMembers rest

end

def digitChar (d : Nat) : Char := Char.ofNat (48 + d)

/-- The decimal digits of a number, most significant first (specification
version, by well-founded recursion). -/
def digitsOf (n : Nat) : List Char :=
  if _h : n < 10 then [digitChar n]
  else digitsOf (n / 10) ++ [digitChar (n % 10)]
decreasing_by exact Nat.div_lt_self (by omega) (by omega)

/-- Fuel-indexed accumulator version of `digitsOf`, structurally recursive so
that it evaluates inside the kernel. -/
def renderNatAux : Nat → Nat → List Char → List Char
  | 0, _, acc => acc
  | fuel + 1, n, acc =>
    if n < 10 then digitChar n :: acc
    else renderNatAux fuel (n / 10) (digitChar (n % 10) :: acc)

def renderNat (n : Nat) : List Char := renderNatAux (n + 1) n []

def numDigits (n : Nat) : Nat :=
  if _h : n < 10 then 1 else numDigits (n / 10) + 1
decreasing_by exact Nat.div_lt_self (by omega) (by omega)

/-- Decimal digit accumulator: consumes leading digits, returning the
accumulated value and the rest of the input. -/
def parseDigitsAcc : Nat → List Char → Nat × List Char
  | acc, [] => (acc, [])
  | acc, c :: cs =>
    if c.isDigit then parseDigitsAcc (acc * 10 + (c.toNat - 48)) cs else (acc, c :: cs)

/-- Parse a nonempty run of decimal digits. -/
def parseDigits (cs : List Char) : Option (Nat × List Char) :=
  match cs with
  | c :: _ => if c.isDigit then some (parseDigitsAcc 0 cs) else none
  | [] => none

def renderInt : Int → List Char
  | .ofNat n => renderNat n
  | .negSucc m => '-' :: renderNat (m + 1)

/-- Parse a JSON integer: an optional minus sign followed by digits. -/
def parseInt : List Char → Option (Int × List Char)
  | '-' :: cs =>
    match parseDigits cs with
    | some (m, r) => some (-(m : Int), r)
    | none => none
  | cs =>
    match parseDigits cs with
    | some (m, r) => some ((m : Int), r)
    | none => none

/-- A list of characters does not begin with a decimal digit. -/
def noDigitHead (cs : List Char) : Prop :=
  ∀ c t, cs = c :: t → c.isDigit = false

def hexDigitChar (d : Nat) : Char :=
  if d < 10 then Char.ofNat (48 + d) else Char.ofNat (87 + d)

def isHex (c : Char) : Bool :=
  ('0' ≤ c ∧ c ≤ '9') ∨ ('a' ≤ c ∧ c ≤ 'f') ∨ ('A' ≤ c ∧ c ≤ 'F')

def hexVal (c : Char) : Nat :=
  if '0' ≤ c ∧ c ≤ '9' then c.toNat - 48
  else if 'a' ≤ c ∧ c ≤ 'f' then c.toNat - 87
  else c.toNat - 55

/-- JSON escape of a single character: quote, backslash and the common
control characters get their two-character escapes, remaining control
characters get a `\u00XX` escape, everything else is emitted verbatim. -/
def escapeChar (c : Char) : List Char :=
  if c = '"' then ['\\', '"']
  else if c = '\\' then ['\\', '\\']
  else if c = '\n' then ['\\', 'n']
  else if c = '\r' then ['\\', 'r']
  else if c = '\t' then ['\\', 't']
  else if c.toNat < 32 then
    ['\\', 'u', '0', '0', hexDigitChar (c.toNat / 16), hexDigitChar (c.toNat % 16)]
  else [c]

def renderStrBody (cs : List Char) : List Char := cs.flatMap escapeChar

/-- Whether a natural number is a valid unicode scalar value (not a
surrogate, below 0x110000), as a Boolean. -/
def isValidCp (n : Nat) : Bool := n < 0xd800 ∨ (0xe000 ≤ n ∧ n < 0x110000)

/-- Parse the body of a JSON string (after the opening quote), up to and
including the closing quote, unescaping as it goes. -/
def parseStringAcc (acc : List Char) : List Char → Option (String × List Char)
  | [] => none
  | c :: rest =>
    if c = '"' then some (⟨acc.reverse⟩, rest)
    else if c = '\\' then
      match rest with
      | [] => none
      | e :: rest2 =>
        if e = '"' then parseStringAcc ('"' :: acc) rest2
        else if e = '\\' then parseStringAcc ('\\' :: acc) rest2
        else if e = '/' then parseStringAcc ('/' :: acc) rest2
        else if e = 'n' then parseStringAcc ('\n' :: acc) rest2
        else if e = 'r' then parseStringAcc ('\r' :: acc) rest2
        else if e = 't' then parseStringAcc ('\t' :: acc) rest2
        else if e = 'b' then parseStringAcc (Char.ofNat 8 :: acc) rest2
        else if e = 'f' then parseStringAcc (Char.ofNat 12 :: acc) rest2
        else if e = 'u' then
          match rest2 with
          | h1 :: h2 :: h3 :: h4 :: rest3 =>
            if isHex h1 && isHex h2 && isHex h3 && isHex h4 then
              let n := ((hexVal h1 * 16 + hexVal h2) * 16 + hexVal h3) * 16 + hexVal h4
              if isValidCp n then parseStringAcc (Char.ofNat n :: acc) rest3
              else none
            else none
          | _ => none
        else none
    else parseStringAcc (c :: acc) rest
termination_by structural cs => cs

/-- Rendering of an object key.  `serde_json` only ever reaches this with
string keys (non-string keys abort serialization first); an integer key is
rendered as its decimal text in quotes, which is how `serde_json` renders
integer-keyed maps when it accepts them. -/
def renderKey : SKey → List Char
  | .str s => '"' :: (renderStrBody s.data ++ ['"'])
  | .int n => '"' :: (renderInt n ++ ['"'])

mutual

/-- Render a JSON value as compact JSON text (no whitespace), the output
format of `serde_json::to_string`. -/
def renderChars : SValue → List Char
  | .null => "null".data
  | .bool true => "true".data
  | .bool false => "false".data
  | .num n => renderInt n
  | .str s => '"' :: (renderStrBody s.data ++ ['"'])
  | .arr xs => '[' :: renderElems xs
  | .map kvs => '{' :: renderMembers kvs

def renderElems : List SValue → List Char
  | [] => [']']
  | x :: xs => renderChars x ++ renderElemsTail xs

def renderElemsTail : List SValue → List Char
  | [] => [']']
  | x :: xs => ',' :: (renderChars x ++ renderElemsTail xs)

def renderMembers : List (SKey × SValue) → List Char
  | [] => ['}']
  | (k, v) :: rest => renderKey k ++ (':' :: (renderChars v ++ renderMembersTail rest))

def renderMembersTail : List (SKey × SValue) → List Char
  | [] => ['}']
  | (k, v) :: rest =>
    ',' :: (renderKey k ++ (':' :: (renderChars v ++ renderMembersTail rest)))

end

mutual

/-- Fuel-indexed recursive-descent JSON parser for a single value. -/
def parseVal : Nat → List Char → Option (SValue × List Char)
  | 0, _ => none
  | fuel + 1, cs =>
    match cs with
    | [] => none
    | c :: rest =>
      if c = 'n' then
        match rest with
        | 'u' :: 'l' :: 'l' :: r => some (.null, r)
        | _ => none
      else if c = 't' then
        match rest with
        | 'r' :: 'u' :: 'e' :: r => some (.bool true, r)
        | _ => none
      else if c = 'f' then
        match rest with
        | 'a' :: 'l' :: 's' :: 'e' :: r => some (.bool false, r)
        | _ => none
      else if c = '"' then
        match parseStringAcc [] rest with
        | some (s, r) => some (.str s, r)
        | none => none
      else if c = '[' then
        match parseElems fuel rest with
        | some (xs, r) => some (.arr xs, r)
        | none => none
      else if c = '{' then
        match parseMembers fuel rest with
        | some (ms, r) => some (.map ms, r)
        | none => none
      else if c = '-' ∨ c.isDigit then
        match parseInt (c :: rest) with
        | some (n, r) => some (.num n, r)
        | none => none
      else none

/-- Parse array elements after the opening bracket, up to and including the
closing bracket. -/
def parseElems : Nat → List Char → Option (List SValue × List Char)
  | 0, _ => none
  | fuel + 1, cs =>
    match cs with
    | [] => none
    | c :: r =>
      if c = ']' then some ([], r)
      else
        match parseVal fuel (c :: r) with
        | some (v, r1) =>
          match r1 with
          | [] => none
          | d :: r2 =>
            if d = ',' then
              match parseElems fuel r2 with
              | some (vs, r3) => some (v :: vs, r3)
              | none => none
            else if d = ']' then some ([v], r2)
            else none
        | none => none

/-- Parse object members after the opening brace, up to and including the
closing brace.  JSON object keys are always strings. -/
def parseMembers : Nat → List Char → Option (List (SKey × SValue) × List Char)
  | 0, _ => none
  | fuel + 1, cs =>
    match cs with
    | [] => none
    | c :: r =>
      if c = '}' then some ([], r)
      else if c = '"' then
        match parseStringAcc [] r with
        | some (k, r1) =>
          match r1 with
          | [] => none
          | d :: r2 =>
            if d = ':' then
              match parseVal fuel r2 with
              | some (v, r3) =>
                match r3 with
                | [] => none
                | e :: r4 =>
                  if e = ',' then
                    match parseMembers fuel r4 with
                    | some (ms, r5) => some ((SKey.str k, v) :: ms, r5)
                    | none => none
                  else if e = '}' then some ([(SKey.str k, v)], r4)
                  else none
              | none => none
            else none
        | none => none
      else none

end

mutual

/-- Fuel sufficient for `parseVal` to parse the rendering of a value. -/
def fuelOf : SValue → Nat
  | .null => 1
  | .bool _ => 1
  | .num _ => 1
  | .str _ => 1
  | .arr xs => fuelElems xs + 1
  | .map kvs => fuelMembers kvs + 1

def fuelElems : List SValue → Nat
  | [] => 1
  | x :: xs => fuelOf x + fuelElems xs + 1

def fuelMembers : List (SKey × SValue) → Nat
  | [] => 1
  | (_, v) :: rest => fuelOf v + fuelMembers rest + 1

end

/-- UTF-8 encoding of a single unicode scalar value. -/
def utf8Char (c : Char) : List Nat :=
  let n := c.toNat
  if n < 128 then [n]
  else if n < 2048 then [192 + n / 64, 128 + n % 64]
  else if n < 65536 then [224 + n / 4096, 128 + n / 64 % 64, 128 + n % 64]
  else [240 + n / 262144, 128 + n / 4096 % 64, 128 + n / 64 % 64, 128 + n % 64]

/-- UTF-8 bytes of a string. -/
def utf8Bytes (s : String) : List Nat := s.data.flatMap utf8Char

/-- Decode a single UTF-8 sequence starting with byte `b0`, returning the
character and the remaining bytes.  Rejects truncated sequences, stray
continuation bytes, overlong encodings, surrogates and out-of-range scalar
values. -/
def utf8DecodeOne (b0 : Nat) (rest : List Nat) : Option (Char × List Nat) :=
  if b0 < 128 then some (Char.ofNat b0, rest)
  else if 192 ≤ b0 ∧ b0 < 224 then
    match rest with
    | b1 :: rest1 =>
      if 128 ≤ b1 ∧ b1 < 192 then
        if 128 ≤ (b0 - 192) * 64 + (b1 - 128) then
          some (Char.ofNat ((b0 - 192) * 64 + (b1 - 128)), rest1)
        else none
      else none
    | [] => none
  else if 224 ≤ b0 ∧ b0 < 240 then
    match rest with
    | b1 :: b2 :: rest2 =>
      if (128 ≤ b1 ∧ b1 < 192) ∧ (128 ≤ b2 ∧ b2 < 192) then
        if 2048 ≤ ((b0 - 224) * 64 + (b1 - 128)) * 64 + (b2 - 128)
            ∧ isValidCp (((b0 - 224) * 64 + (b1 - 128)) * 64 + (b2 - 128)) then
          some (Char.ofNat (((b0 - 224) * 64 + (b1 - 128)) * 64 + (b2 - 128)), rest2)
        else none
      else none
    | _ => none
  else if 240 ≤ b0 ∧ b0 < 248 then
    match rest with
    | b1 :: b2 :: b3 :: rest3 =>
      if (128 ≤ b1 ∧ b1 < 192) ∧ (128 ≤ b2 ∧ b2 < 192) ∧ (128 ≤ b3 ∧ b3 < 192) then
        if 65536 ≤ (((b0 - 240) * 64 + (b1 - 128)) * 64 + (b2 - 128)) * 64 + (b3 - 128)
            ∧ (((b0 - 240) * 64 + (b1 - 128)) * 64 + (b2 - 128)) * 64 + (b3 - 128)
              < 1114112 then
          some (Char.ofNat
            ((((b0 - 240) * 64 + (b1 - 128)) * 64 + (b2 - 128)) * 64 + (b3 - 128)),
            rest3)
        else none
      else none
    | _ => none
  else none

/-- UTF-8 decoder over a whole byte list, fuel-indexed (each decoded
character consumes at least one byte, so `bs.length` fuel suffices). -/
def utf8DecodeAux : Nat → List Nat → List Char → Option String
  | _, [], acc => some ⟨acc.reverse⟩
  | 0, _ :: _, _ => none
  | fuel + 1, b0 :: rest, acc =>
    match utf8DecodeOne b0 rest with
    | some cr => utf8DecodeAux fuel cr.2 (cr.1 :: acc)
    | none => none

def utf8Decode (bs : List Nat) : Option String := utf8DecodeAux bs.length bs []

/-- Modelled from the spec: the JSON library's error type (the spec's
"library-specific error on failure"): a serialization rejection
(non-string map key), a parse failure, trailing input after a complete
value, invalid UTF-8 in binary input, or a schema mismatch against the
target type. -/
inductive SerdeJsonError where
  | keyMustBeString
  | invalidJson
  | trailingChars
  | invalidUtf8
  | dataMismatch
deriving DecidableEq

/-- Modelled from the spec: `serde_json::to_string` — "serialize value to
text"; fails exactly when the value contains a map with a non-string key. -/
def serde_to_string (v : SValue) : Except SerdeJsonError String :=
  if keysOk v then .ok ⟨renderChars v⟩ else .error .keyMustBeString

/-- Modelled from the spec: `serde_json::to_vec` — "serialize value to
bytes": the binary output is "the UTF-8 bytes of the JSON encoding
(byte-for-byte identical to what (1) would produce as text)". -/
def serde_to_vec (v : SValue) : Except SerdeJsonError (List Nat) :=
  match serde_to_string v with
  | .ok s => .ok (utf8Bytes s)
  | .error e => .error e

/-- Modelled from the spec: `serde_json::from_str` — "deserialize text to
value"; fails on malformed JSON and on trailing characters after a
complete value. -/
def serde_from_str (s : String) : Except SerdeJsonError SValue :=
  match parseVal (4 * s.data.length + 4) s.data with
  | some (v, []) => .ok v
  | some (_, _ :: _) => .error .trailingChars
  | none => .error .invalidJson

/-- Modelled from the spec: `serde_json::from_slice` — "deserialize bytes
to value". -/
def serde_from_slice (bs : List Nat) : Except SerdeJsonError SValue :=
  match utf8Decode bs with
  | some s => serde_from_str s
  | none => .error .invalidUtf8

/-- Modelled from the spec: the host library's message enum — a text-body
variant holding a UTF-8 string, a binary-body variant holding a byte
sequence, and other (ping/pong/close style) variants that matter to the
adapter only as an error case. -/
inductive Message where
  | Text (s : String)
  | Binary (b : List Nat)
  | Ping (b : List Nat)
  | Pong (b : List Nat)
  | Close (code : Nat) (reason : String)
deriving DecidableEq

/-- `JsonError` from `src/json.rs`: a wrapped `serde_json` error, or the
wrong-variant failure raised when the message is neither text nor binary. -/
inductive JsonError where
  | SerdeJson (e : SerdeJsonError)
  | NeitherTextNorBinaryMessage
deriving DecidableEq

/-- Modelled from the spec: the host library's umbrella error type; the
adapter's errors convert into it via the `Json` case.  Failures of other
subsystems (never produced by this adapter) are collapsed into one case. -/
inductive Error where
  | Json (e : JsonError)
  | Other
deriving DecidableEq

/-- The `#[from]` conversion `JsonError → Error`. -/
def Error.ofJsonError (e : JsonError) : Error := .Json e

/-- `impl From<serde_json::Error> for Error` (src/json.rs lines 15–19):
`JsonError::from(value).into()`. -/
def Error.ofSerde (e : SerdeJsonError) : Error :=
  Error.ofJsonError (JsonError.SerdeJson e)

/-- `Message::text_from_json` (src/json.rs lines 33–37):
`serde_json::to_string(json).map(Message::Text).map_err(Into::into)`. -/
def Message.text_from_json (v : SValue) : Except Error Message :=
  match serde_to_string v with
  | .ok s => .ok (Message.Text s)
  | .error e => .error (Error.ofSerde e)

/-- `Message::binary_from_json` (src/json.rs lines 50–54):
`serde_json::to_vec(json).map(Message::Binary).map_err(Into::into)`. -/
def Message.binary_from_json (v : SValue) : Except Error Message :=
  match serde_to_vec v with
  | .ok b => .ok (Message.Binary b)
  | .error e => .error (Error.ofSerde e)

/-- `Message::json` (src/json.rs lines 70–76): a text body goes through
`serde_json::from_str`, a binary body through `serde_json::from_slice`,
and any other variant is `JsonError::NeitherTextNorBinaryMessage`; the
`?` operator applies the `From<serde_json::Error> for Error` conversion. -/
def Message.json (m : Message) : Except Error SValue :=
  match m with
  | .Text s =>
    match serde_from_str s with
    | .ok v => .ok v
    | .error e => .error (Error.ofSerde e)
  | .Binary b =>
    match serde_from_slice b with
    | .ok v => .ok v
    | .error e => .error (Error.ofSerde e)
  | _ => .error (Error.ofJsonError JsonError.NeitherTextNorBinaryMessage)

/-- Modelled from the spec: `Message::json::<T>` at an arbitrary target
type, "constrained to types that support deserialization without external
context": the parsed JSON value is mapped into `T` by the type's
deserializer; its failure surfaces as a data-mismatch `serde_json` error. -/
def Message.jsonAs {T : Type} (fromS : SValue → Option T) (m : Message) :
    Except Error T :=
  match m.json with
  | .ok j =>
    match fromS j with
    | some t => .ok t
    | none => .error (Error.ofSerde SerdeJsonError.dataMismatch)
  | .error e => .error e

/-- The typed record `{ "a": 1 }` of the spec's concrete scenario, with
its serde data-model image and its deserializer. -/
structure RecA where
  a : Int
deriving DecidableEq

def RecA.toSValue (r : RecA) : SValue := .map [(SKey.str "a", .num r.a)]

def RecA.fromSValue : SValue → Option RecA
  | .map [(SKey.str "a", .num n)] => some ⟨n⟩
  | _ => none

theorem digitChar_isDigit {d : Nat} (h : d < 10) : (digitChar d).isDigit = true := by
  interval_cases d <;> decide

theorem digitChar_toNat {d : Nat} (h : d < 10) : (digitChar d).toNat = 48 + d := by
  interval_cases d <;> decide

theorem digitsOf_head_isDigit (n : Nat) :
    ∃ c t, digitsOf n = c :: t ∧ c.isDigit = true := by
  induction n using digitsOf.induct with
  | case1 n h =>
    exact ⟨digitChar n, [], by rw [digitsOf]; simp [h], digitChar_isDigit h⟩
  | case2 n h ih =>
    obtain ⟨c, t, hct, hd⟩ := ih
    refine ⟨c, t ++ [digitChar (n % 10)], ?_, hd⟩
    rw [digitsOf]
    simp [h, hct]

theorem numDigits_large {n : Nat} (h : ¬ n < 10) :
    numDigits n = numDigits (n / 10) + 1 := by
  rw [numDigits]
  simp [h]

theorem numDigits_pos (n : Nat) : 1 ≤ numDigits n := by
  rw [numDigits]
  split <;> omega

theorem numDigits_le_succ (n : Nat) : numDigits n ≤ n + 1 := by
  induction n using numDigits.induct with
  | case1 n h =>
    rw [numDigits]
    simp [h]
  | case2 n h ih =>
    rw [numDigits_large h]
    omega

theorem renderNatAux_eq (fuel : Nat) :
    ∀ n acc, numDigits n ≤ fuel → renderNatAux fuel n acc = digitsOf n ++ acc := by
  induction fuel with
  | zero =>
    intro n acc h
    exact absurd h (by have := numDigits_pos n; omega)
  | succ fuel ih =>
    intro n acc h
    rw [renderNatAux]
    by_cases h10 : n < 10
    · rw [if_pos h10, digitsOf]
      simp [h10]
    · rw [if_neg h10]
      rw [ih _ _ (by rw [numDigits_large h10] at h; omega)]
      conv_rhs => rw [digitsOf]
      simp [h10]

theorem renderNat_eq_digitsOf (n : Nat) : renderNat n = digitsOf n := by
  unfold renderNat
  rw [renderNatAux_eq _ _ _ (by have := numDigits_le_succ n; omega)]
  simp

theorem renderNat_head_isDigit (n : Nat) :
    ∃ c t, renderNat n = c :: t ∧ c.isDigit = true := by
  rw [renderNat_eq_digitsOf]
  exact digitsOf_head_isDigit n

theorem parseDigitsAcc_digitsOf (n : Nat) :
    ∀ acc rest, parseDigitsAcc acc (digitsOf n ++ rest)
      = parseDigitsAcc (acc * 10 ^ numDigits n + n) rest := by
  induction n using digitsOf.induct with
  | case1 n h =>
    intro acc rest
    rw [digitsOf]
    simp only [h, dif_pos, List.cons_append, List.nil_append]
    rw [parseDigitsAcc]
    simp only [digitChar_isDigit h, if_pos]
    rw [digitChar_toNat h, numDigits]
    simp [h]
  | case2 n h ih =>
    intro acc rest
    rw [digitsOf]
    simp only [h, dif_neg, not_false_iff, List.append_assoc, List.cons_append,
      List.nil_append]
    rw [ih]
    rw [parseDigitsAcc]
    have h10 : n % 10 < 10 := Nat.mod_lt _ (by omega)
    simp only [digitChar_isDigit h10, if_pos]
    rw [digitChar_toNat h10, numDigits_large h]
    congr 1
    rw [pow_succ, ← mul_assoc]
    generalize acc * 10 ^ numDigits (n / 10) = A
    omega

theorem parseDigitsAcc_no_digit {rest : List Char}
    (h : ∀ c t, rest = c :: t → c.isDigit = false) (acc : Nat) :
    parseDigitsAcc acc rest = (acc, rest) := by
  cases rest with
  | nil => rfl
  | cons c t =>
    rw [parseDigitsAcc]
    simp [h c t rfl]

theorem parseDigits_renderNat (n : Nat) (rest : List Char) (h : noDigitHead rest) :
    parseDigits (renderNat n ++ rest) = some (n, rest) := by
  obtain ⟨c, t, hct, hd⟩ := renderNat_head_isDigit n
  rw [parseDigits.eq_def]
  rw [hct]
  simp only [List.cons_append]
  simp only [hd, if_pos]
  rw [← List.cons_append, ← hct, renderNat_eq_digitsOf, parseDigitsAcc_digitsOf]
  rw [parseDigitsAcc_no_digit h]
  simp

theorem parseInt_renderInt (n : Int) (rest : List Char) (h : noDigitHead rest) :
    parseInt (renderInt n ++ rest) = some (n, rest) := by
  cases n with
  | ofNat m =>
    rw [renderInt]
    obtain ⟨c, t, hct, hd⟩ := renderNat_head_isDigit m
    rw [parseInt.eq_def]
    rw [hct]
    simp only [List.cons_append]
    have hne : c ≠ '-' := by
      intro hc
      rw [hc] at hd
      exact absurd hd (by decide)
    split
    · rename_i heq
      exact absurd (List.cons.injEq .. ▸ heq) (by simp [hne])
    · rw [← List.cons_append, ← hct, parseDigits_renderNat m rest h]
      rfl
  | negSucc m =>
    rw [renderInt]
    simp only [List.cons_append]
    rw [parseInt]
    rw [parseDigits_renderNat (m + 1) rest h]
    simp [Int.negSucc_eq]

theorem hex_round : ∀ d : Nat, d < 16 →
    isHex (hexDigitChar d) = true ∧ hexVal (hexDigitChar d) = d := by decide

theorem hexVal_zero : hexVal '0' = 0 := by decide

theorem isHex_zero : isHex '0' = true := by decide

theorem parseStringAcc_escape (c : Char) (acc cs : List Char) :
    parseStringAcc acc (escapeChar c ++ cs) = parseStringAcc (c :: acc) cs := by
  by_cases hc1 : c = '"'
  · subst hc1
    simp only [escapeChar, if_pos rfl, List.cons_append, List.nil_append]
    conv_lhs => rw [parseStringAcc.eq_def]
    simp
  by_cases hc2 : c = '\\'
  · subst hc2
    simp only [escapeChar, if_neg hc1, if_pos rfl, List.cons_append, List.nil_append]
    conv_lhs => rw [parseStringAcc.eq_def]
    simp
  by_cases hc3 : c = '\n'
  · subst hc3
    simp only [escapeChar, if_neg hc1, if_neg hc2, if_pos rfl, List.cons_append,
      List.nil_append]
    conv_lhs => rw [parseStringAcc.eq_def]
    simp
  by_cases hc4 : c = '\r'
  · subst hc4
    simp only [escapeChar, if_neg hc1, if_neg hc2, if_neg hc3, if_pos rfl,
      List.cons_append, List.nil_append]
    conv_lhs => rw [parseStringAcc.eq_def]
    simp
  by_cases hc5 : c = '\t'
  · subst hc5
    simp only [escapeChar, if_neg hc1, if_neg hc2, if_neg hc3, if_neg hc4, if_pos rfl,
      List.cons_append, List.nil_append]
    conv_lhs => rw [parseStringAcc.eq_def]
    simp
  by_cases hctrl : c.toNat < 32
  · simp only [escapeChar, if_neg hc1, if_neg hc2, if_neg hc3, if_neg hc4, if_neg hc5,
      if_pos hctrl, List.cons_append, List.nil_append]
    have ht16 : c.toNat / 16 < 16 := by omega
    have hm16 : c.toNat % 16 < 16 := by omega
    obtain ⟨hh3, hv3⟩ := hex_round _ ht16
    obtain ⟨hh4, hv4⟩ := hex_round _ hm16
    have hn : ((hexVal '0' * 16 + hexVal '0') * 16 + c.toNat / 16) * 16 + c.toNat % 16
        = c.toNat := by
      rw [hexVal_zero]
      omega
    have hvalid : isValidCp c.toNat = true := by
      simp only [isValidCp, decide_eq_true_eq]
      exact Or.inl (by omega)
    conv_lhs => rw [parseStringAcc.eq_def]
    simp [hh3, hh4, hv3, hv4, hn, hvalid, Char.ofNat_toNat, isHex_zero]
  · simp only [escapeChar, if_neg hc1, if_neg hc2, if_neg hc3, if_neg hc4, if_neg hc5,
      if_neg hctrl, List.cons_append, List.nil_append]
    conv_lhs => rw [parseStringAcc.eq_def]
    simp [hc1, hc2]

theorem parseStringAcc_render (cs : List Char) :
    ∀ acc rest, parseStringAcc acc (renderStrBody cs ++ '"' :: rest)
      = some (⟨acc.reverse ++ cs⟩, rest) := by
  induction cs with
  | nil =>
    intro acc rest
    simp only [renderStrBody, List.flatMap_nil, List.nil_append]
    conv_lhs => rw [parseStringAcc.eq_def]
    simp
  | cons c cs ih =>
    intro acc rest
    simp only [renderStrBody, List.flatMap_cons, List.append_assoc]
    rw [← renderStrBody, parseStringAcc_escape, ih]
    simp

theorem fuelOf_pos (v : SValue) : 1 ≤ fuelOf v := by
  cases v <;> simp only [fuelOf] <;> omega

theorem fuelElems_pos (xs : List SValue) : 1 ≤ fuelElems xs := by
  cases xs <;> simp only [fuelElems] <;> omega

theorem fuelMembers_pos (kvs : List (SKey × SValue)) : 1 ≤ fuelMembers kvs := by
  cases kvs with
  | nil => simp only [fuelMembers]; omega
  | cons kv rest =>
    obtain ⟨k, v⟩ := kv
    simp only [fuelMembers]
    omega

theorem isDigit_ne {c : Char} (h : c.isDigit = true) :
    c ≠ 'n' ∧ c ≠ 't' ∧ c ≠ 'f' ∧ c ≠ '"' ∧ c ≠ '[' ∧ c ≠ '{' ∧ c ≠ ']' ∧ c ≠ '}'
      ∧ c ≠ ',' ∧ c ≠ ':' := by
  refine ⟨?_, ?_, ?_, ?_, ?_, ?_, ?_, ?_, ?_, ?_⟩
  all_goals
    intro he
    rw [he] at h
    exact absurd h (by decide)

theorem noDigitHead_cons {c : Char} (h : c.isDigit = false) (t : List Char) :
    noDigitHead (c :: t) := by
  intro c' t' he
  injection he with h1 h2
  rw [← h1]
  exact h

theorem noDigitHead_nil : noDigitHead [] := by
  intro c t he
  cases he

theorem renderChars_head (v : SValue) :
    ∃ c t, renderChars v = c :: t ∧
      (c = 'n' ∨ c = 't' ∨ c = 'f' ∨ c = '"' ∨ c = '[' ∨ c = '{' ∨ c = '-'
        ∨ c.isDigit = true) := by
  cases v with
  | null => exact ⟨'n', ['u', 'l', 'l'], by simp [renderChars], by simp⟩
  | bool b =>
    cases b with
    | true => exact ⟨'t', ['r', 'u', 'e'], by simp [renderChars], by simp⟩
    | false => exact ⟨'f', ['a', 'l', 's', 'e'], by simp [renderChars], by simp⟩
  | num n =>
    cases n with
    | ofNat m =>
      obtain ⟨c, t, hct, hd⟩ := renderNat_head_isDigit m
      exact ⟨c, t, by simp [renderChars, renderInt, hct], by tauto⟩
    | negSucc m =>
      exact ⟨'-', renderNat (m + 1), by simp [renderChars, renderInt], by simp⟩
  | str s =>
    exact ⟨'"', renderStrBody s.data ++ ['"'], by simp [renderChars], by simp⟩
  | arr xs => exact ⟨'[', renderElems xs, by simp [renderChars], by simp⟩
  | map kvs => exact ⟨'{', renderMembers kvs, by simp [renderChars], by simp⟩

theorem renderChars_head_ne (v : SValue) :
    ∃ c t, renderChars v = c :: t ∧ c ≠ ']' ∧ c ≠ '}' ∧ c ≠ ',' ∧ c ≠ ':' := by
  obtain ⟨c, t, hct, hc⟩ := renderChars_head v
  refine ⟨c, t, hct, ?_, ?_, ?_, ?_⟩
  all_goals
    rcases hc with h | h | h | h | h | h | h | h
  all_goals
    first
    | (rw [h]; decide)
    | (obtain ⟨_, _, _, _, _, _, h7, h8, h9, h10⟩ := isDigit_ne h; assumption)

theorem parseVal_null (fuel : Nat) (rest : List Char) :
    parseVal (fuel + 1) ('n' :: 'u' :: 'l' :: 'l' :: rest) = some (.null, rest) := by
  conv_lhs => rw [parseVal.eq_def]
  simp

theorem parseVal_true (fuel : Nat) (rest : List Char) :
    parseVal (fuel + 1) ('t' :: 'r' :: 'u' :: 'e' :: rest) = some (.bool true, rest) := by
  conv_lhs => rw [parseVal.eq_def]
  simp

theorem parseVal_false (fuel : Nat) (rest : List Char) :
    parseVal (fuel + 1) ('f' :: 'a' :: 'l' :: 's' :: 'e' :: rest)
      = some (.bool false, rest) := by
  conv_lhs => rw [parseVal.eq_def]
  simp

theorem parseVal_quote (fuel : Nat) (cs : List Char) :
    parseVal (fuel + 1) ('"' :: cs)
      = match parseStringAcc [] cs with
        | some (s, r) => some (.str s, r)
        | none => none := by
  conv_lhs => rw [parseVal.eq_def]
  simp

theorem parseVal_lbracket (fuel : Nat) (cs : List Char) :
    parseVal (fuel + 1) ('[' :: cs)
      = match parseElems fuel cs with
        | some (xs, r) => some (.arr xs, r)
        | none => none := by
  conv_lhs => rw [parseVal.eq_def]
  simp

theorem parseVal_lbrace (fuel : Nat) (cs : List Char) :
    parseVal (fuel + 1) ('{' :: cs)
      = match parseMembers fuel cs with
        | some (ms, r) => some (.map ms, r)
        | none => none := by
  conv_lhs => rw [parseVal.eq_def]
  simp

theorem parseVal_digit (fuel : Nat) {c : Char} (hd : c.isDigit = true) (cs : List Char) :
    parseVal (fuel + 1) (c :: cs)
      = match parseInt (c :: cs) with
        | some (n, r) => some (.num n, r)
        | none => none := by
  obtain ⟨h1, h2, h3, h4, h5, h6, _, _, _, _⟩ := isDigit_ne hd
  conv_lhs => rw [parseVal.eq_def]
  simp [h1, h2, h3, h4, h5, h6, hd]

theorem parseVal_minus (fuel : Nat) (cs : List Char) :
    parseVal (fuel + 1) ('-' :: cs)
      = match parseInt ('-' :: cs) with
        | some (n, r) => some (.num n, r)
        | none => none := by
  conv_lhs => rw [parseVal.eq_def]
  simp

theorem parseVal_num (fuel : Nat) (n : Int) (rest : List Char) (hnd : noDigitHead rest) :
    parseVal (fuel + 1) (renderInt n ++ rest) = some (.num n, rest) := by
  have hp := parseInt_renderInt n rest hnd
  cases n with
  | ofNat m =>
    obtain ⟨c, t, hct, hd⟩ := renderNat_head_isDigit m
    have hri : renderInt (Int.ofNat m) = c :: t := by rw [renderInt]; exact hct
    rw [hri, List.cons_append, parseVal_digit fuel hd, ← List.cons_append, ← hri, hp]
  | negSucc m =>
    have hri : renderInt (Int.negSucc m) = '-' :: renderNat (m + 1) := by rw [renderInt]
    rw [hri, List.cons_append, parseVal_minus, ← List.cons_append, ← hri, hp]

theorem string_eta (s : String) : String.mk s.data = s := rfl

theorem noDigitHead_renderElemsTail (xs : List SValue) (rest : List Char) :
    noDigitHead (renderElemsTail xs ++ rest) := by
  cases xs with
  | nil =>
    simp only [renderElemsTail, List.cons_append, List.nil_append]
    exact noDigitHead_cons (by decide) _
  | cons y ys =>
    simp only [renderElemsTail, List.cons_append]
    exact noDigitHead_cons (by decide) _

theorem noDigitHead_renderMembersTail (kvs : List (SKey × SValue)) (rest : List Char) :
    noDigitHead (renderMembersTail kvs ++ rest) := by
  cases kvs with
  | nil =>
    simp only [renderMembersTail, List.cons_append, List.nil_append]
    exact noDigitHead_cons (by decide) _
  | cons kv rest' =>
    obtain ⟨k, v⟩ := kv
    simp only [renderMembersTail, List.cons_append]
    exact noDigitHead_cons (by decide) _

/-- The central round-trip fact: with enough fuel, parsing the rendering of
a value (all of whose map keys are strings) succeeds and returns exactly
that value, leaving the continuation untouched. -/
theorem parse_render_all (fuel : Nat) :
    (∀ v rest, keysOk v = true → fuelOf v ≤ fuel → noDigitHead rest →
      parseVal fuel (renderChars v ++ rest) = some (v, rest)) ∧
    (∀ xs rest, keysOkElems xs = true → fuelElems xs ≤ fuel →
      parseElems fuel (renderElems xs ++ rest) = some (xs, rest)) ∧
    (∀ kvs rest, keysOkMembers kvs = true → fuelMembers kvs ≤ fuel →
      parseMembers fuel (renderMembers kvs ++ rest) = some (kvs, rest)) := by
  induction fuel with
  | zero =>
    refine ⟨fun v _ _ hf _ => absurd hf (by have := fuelOf_pos v; omega),
      fun xs _ _ hf => absurd hf (by have := fuelElems_pos xs; omega),
      fun kvs _ _ hf => absurd hf (by have := fuelMembers_pos kvs; omega)⟩
  | succ fuel ih =>
    obtain ⟨ihP, ihQ, ihM⟩ := ih
    refine ⟨?_, ?_, ?_⟩
    · intro v rest hk hf hnd
      cases v with
      | null =>
        simp only [renderChars, List.cons_append, List.nil_append]
        exact parseVal_null fuel rest
      | bool b =>
        cases b with
        | true =>
          simp only [renderChars, List.cons_append, List.nil_append]
          exact parseVal_true fuel rest
        | false =>
          simp only [renderChars, List.cons_append, List.nil_append]
          exact parseVal_false fuel rest
      | num n =>
        simp only [renderChars]
        exact parseVal_num fuel n rest hnd
      | str s =>
        simp only [renderChars, List.cons_append, List.append_assoc,
          List.singleton_append]
        rw [parseVal_quote, parseStringAcc_render]
        simp [string_eta]
      | arr xs =>
        simp only [renderChars, List.cons_append]
        rw [parseVal_lbracket,
          ihQ xs rest (by simpa [keysOk] using hk)
            (by simp only [fuelOf] at hf; omega)]
      | map kvs =>
        simp only [renderChars, List.cons_append]
        rw [parseVal_lbrace,
          ihM kvs rest (by simpa [keysOk] using hk)
            (by simp only [fuelOf] at hf; omega)]
    · intro xs rest hk hf
      cases xs with
      | nil =>
        simp only [renderElems, List.cons_append, List.nil_append]
        conv_lhs => rw [parseElems.eq_def]
        simp
      | cons x xs =>
        obtain ⟨c, t, hct, hne1, hne2, hne3, hne4⟩ := renderChars_head_ne x
        obtain ⟨hkx, hkxs⟩ : keysOk x = true ∧ keysOkElems xs = true := by
          simpa [keysOkElems, Bool.and_eq_true] using hk
        have hfb : fuelOf x ≤ fuel ∧ fuelElems xs ≤ fuel := by
          simp only [fuelElems] at hf
          omega
        have hx := ihP x (renderElemsTail xs ++ rest) hkx hfb.1
          (noDigitHead_renderElemsTail xs rest)
        rw [hct] at hx
        simp only [renderElems, hct, List.cons_append, List.append_assoc]
        conv_lhs => rw [parseElems.eq_def]
        simp only [List.cons_append] at hx
        simp only [if_neg hne1, hx]
        cases xs with
        | nil =>
          simp only [renderElemsTail, List.cons_append, List.nil_append]
          simp
        | cons y ys =>
          simp only [renderElemsTail, List.cons_append]
          have hq := ihQ (y :: ys) rest hkxs hfb.2
          simp only [renderElems, List.append_assoc] at hq
          simp [hq]
    · intro kvs rest hk hf
      cases kvs with
      | nil =>
        simp only [renderMembers, List.cons_append, List.nil_append]
        conv_lhs => rw [parseMembers.eq_def]
        simp
      | cons kv kvs =>
        obtain ⟨k, v⟩ := kv
        cases k with
        | int n =>
          exfalso
          simp [keysOkMembers] at hk
        | str s =>
          obtain ⟨hkv, hkvs⟩ : keysOk v = true ∧ keysOkMembers kvs = true := by
            simpa [keysOkMembers, Bool.and_eq_true] using hk
          have hfb : fuelOf v ≤ fuel ∧ fuelMembers kvs ≤ fuel := by
            simp only [fuelMembers] at hf
            omega
          have hv := ihP v (renderMembersTail kvs ++ rest) hkv hfb.1
            (noDigitHead_renderMembersTail kvs rest)
          have hs := parseStringAcc_render s.data []
            (':' :: (renderChars v ++ (renderMembersTail kvs ++ rest)))
          simp only [List.reverse_nil, List.nil_append, string_eta] at hs
          simp only [renderMembers, renderKey, List.cons_append, List.append_assoc,
            List.singleton_append, List.nil_append]
          conv_lhs => rw [parseMembers.eq_def]
          cases kvs with
          | nil =>
            simp only [renderMembersTail, List.cons_append, List.nil_append,
              List.append_assoc] at hv hs ⊢
            simp [hs, hv]
          | cons kv2 kvs2 =>
            obtain ⟨k2, v2⟩ := kv2
            have hm := ihM ((k2, v2) :: kvs2) rest hkvs hfb.2
            simp only [renderMembersTail, renderMembers, List.cons_append,
              List.append_assoc] at hv hs hm ⊢
            simp [hs, hv, hm]

mutual

theorem fuelOf_le_len (v : SValue) : fuelOf v ≤ 4 * (renderChars v).length := by
  cases v with
  | null => simp [fuelOf, renderChars]
  | bool b => cases b <;> simp [fuelOf, renderChars]
  | num n =>
    have h1 : 1 ≤ (renderInt n).length := by
      cases n with
      | ofNat m =>
        obtain ⟨c, t, hct, _⟩ := renderNat_head_isDigit m
        simp [renderInt, hct]
      | negSucc m => simp [renderInt]
    simp only [fuelOf]
    have h2 : renderChars (SValue.num n) = renderInt n := by simp [renderChars]
    rw [h2]
    omega
  | str s =>
    simp only [fuelOf, renderChars, List.length_cons]
    omega
  | arr xs =>
    have h := fuelElems_le_len xs
    simp only [fuelOf, renderChars, List.length_cons]
    omega
  | map kvs =>
    have h := fuelMembers_le_len kvs
    simp only [fuelOf, renderChars, List.length_cons]
    omega

theorem fuelElems_le_len (xs : List SValue) :
    fuelElems xs ≤ 4 * (renderElems xs).length := by
  cases xs with
  | nil => simp [fuelElems, renderElems]
  | cons x xs =>
    have hx := fuelOf_le_len x
    cases xs with
    | nil =>
      simp only [fuelElems, renderElems, renderElemsTail, List.length_append,
        List.length_cons, List.length_nil]
      omega
    | cons y ys =>
      have hy := fuelElems_le_len (y :: ys)
      simp only [fuelElems, renderElems, renderElemsTail, List.length_append,
        List.length_cons] at hy ⊢
      omega

theorem fuelMembers_le_len (kvs : List (SKey × SValue)) :
    fuelMembers kvs ≤ 4 * (renderMembers kvs).length := by
  cases kvs with
  | nil => simp [fuelMembers, renderMembers]
  | cons kv kvs =>
    obtain ⟨k, v⟩ := kv
    have hv := fuelOf_le_len v
    cases kvs with
    | nil =>
      simp only [fuelMembers, renderMembers, renderMembersTail, List.length_append,
        List.length_cons, List.length_nil]
      omega
    | cons kv2 kvs2 =>
      obtain ⟨k2, v2⟩ := kv2
      have hm := fuelMembers_le_len ((k2, v2) :: kvs2)
      simp only [fuelMembers, renderMembers, renderMembersTail, List.length_append,
        List.length_cons] at hm ⊢
      omega

end

set_option maxRecDepth 4096 in
theorem utf8DecodeOne_length {b0 : Nat} {rest : List Nat} {cr : Char × List Nat}
    (h : utf8DecodeOne b0 rest = some cr) : cr.2.length ≤ rest.length := by
  obtain ⟨ch, rs⟩ := cr
  unfold utf8DecodeOne at h
  repeat' split at h
  all_goals simp_all
  all_goals omega

theorem char_toNat_valid (c : Char) :
    c.toNat < 55296 ∨ (57344 ≤ c.toNat ∧ c.toNat < 1114112) := by
  have h := c.valid
  simp only [Char.toNat]
  rcases h with h | ⟨h1, h2⟩
  · exact Or.inl h
  · exact Or.inr ⟨by omega, h2⟩

theorem char_ofNat_toNat (c : Char) : Char.ofNat c.toNat = c := Char.ofNat_toNat c

theorem utf8DecodeOne_char (c : Char) (bs : List Nat) :
    ∃ b0 t, utf8Char c = b0 :: t ∧ utf8DecodeOne b0 (t ++ bs) = some (c, bs) := by
  have hval := char_toNat_valid c
  by_cases h1 : c.toNat < 128
  · refine ⟨c.toNat, [], ?_, ?_⟩
    · simp [utf8Char, h1]
    · unfold utf8DecodeOne
      simp [h1, char_ofNat_toNat]
  · by_cases h2 : c.toNat < 2048
    · refine ⟨192 + c.toNat / 64, [128 + c.toNat % 64], ?_, ?_⟩
      · simp [utf8Char, h1, h2]
      · unfold utf8DecodeOne
        have hb0 : ¬ (192 + c.toNat / 64 < 128) := by omega
        have hb0' : 192 ≤ 192 + c.toNat / 64 ∧ 192 + c.toNat / 64 < 224 := by omega
        have hb1 : 128 ≤ 128 + c.toNat % 64 ∧ 128 + c.toNat % 64 < 192 := by omega
        have hn : (192 + c.toNat / 64 - 192) * 64 + (128 + c.toNat % 64 - 128)
            = c.toNat := by omega
        simp only [List.cons_append, List.nil_append, if_neg hb0, if_pos hb0',
          if_pos hb1, hn]
        have h128 : 128 ≤ c.toNat := by omega
        simp [h128, char_ofNat_toNat]
    · by_cases h3 : c.toNat < 65536
      · refine ⟨224 + c.toNat / 4096, [128 + c.toNat / 64 % 64, 128 + c.toNat % 64],
          ?_, ?_⟩
        · simp [utf8Char, h1, h2, h3]
        · unfold utf8DecodeOne
          have hb0 : ¬ (224 + c.toNat / 4096 < 128) := by omega
          have hb0' : ¬ (192 ≤ 224 + c.toNat / 4096 ∧ 224 + c.toNat / 4096 < 224) := by
            omega
          have hb0'' : 224 ≤ 224 + c.toNat / 4096 ∧ 224 + c.toNat / 4096 < 240 := by
            omega
          have hb1 : 128 ≤ 128 + c.toNat / 64 % 64 ∧ 128 + c.toNat / 64 % 64 < 192 := by
            omega
          have hb2 : 128 ≤ 128 + c.toNat % 64 ∧ 128 + c.toNat % 64 < 192 := by omega
          have hb12 : (128 ≤ 128 + c.toNat / 64 % 64 ∧ 128 + c.toNat / 64 % 64 < 192)
              ∧ (128 ≤ 128 + c.toNat % 64 ∧ 128 + c.toNat % 64 < 192) := ⟨hb1, hb2⟩
          have hn : ((224 + c.toNat / 4096 - 224) * 64 + (128 + c.toNat / 64 % 64 - 128))
              * 64 + (128 + c.toNat % 64 - 128) = c.toNat := by omega
          simp only [List.cons_append, List.nil_append, if_neg hb0, if_neg hb0',
            if_pos hb0'', if_pos hb12, hn]
          have h2048 : 2048 ≤ c.toNat := by omega
          have hcp : isValidCp c.toNat = true := by
            simp only [isValidCp, decide_eq_true_eq]
            omega
          simp [h2048, hcp, char_ofNat_toNat]
      · refine ⟨240 + c.toNat / 262144,
          [128 + c.toNat / 4096 % 64, 128 + c.toNat / 64 % 64, 128 + c.toNat % 64],
          ?_, ?_⟩
        · simp [utf8Char, h1, h2, h3]
        · unfold utf8DecodeOne
          have hhi : c.toNat < 1114112 := by omega
          have hb0 : ¬ (240 + c.toNat / 262144 < 128) := by omega
          have hb0' : ¬ (192 ≤ 240 + c.toNat / 262144 ∧ 240 + c.toNat / 262144 < 224) := by
            omega
          have hb0'' : ¬ (224 ≤ 240 + c.toNat / 262144 ∧ 240 + c.toNat / 262144 < 240) := by
            omega
          have hb0''' : 240 ≤ 240 + c.toNat / 262144 ∧ 240 + c.toNat / 262144 < 248 := by
            omega
          have hb1 : 128 ≤ 128 + c.toNat / 4096 % 64 ∧ 128 + c.toNat / 4096 % 64 < 192 := by
            omega
          have hb2 : 128 ≤ 128 + c.toNat / 64 % 64 ∧ 128 + c.toNat / 64 % 64 < 192 := by
            omega
          have hb3 : 128 ≤ 128 + c.toNat % 64 ∧ 128 + c.toNat % 64 < 192 := by omega
          have hb123 : (128 ≤ 128 + c.toNat / 4096 % 64 ∧ 128 + c.toNat / 4096 % 64 < 192)
              ∧ (128 ≤ 128 + c.toNat / 64 % 64 ∧ 128 + c.toNat / 64 % 64 < 192)
              ∧ (128 ≤ 128 + c.toNat % 64 ∧ 128 + c.toNat % 64 < 192) := ⟨hb1, hb2, hb3⟩
          have hn : (((240 + c.toNat / 262144 - 240) * 64
              + (128 + c.toNat / 4096 % 64 - 128)) * 64
              + (128 + c.toNat / 64 % 64 - 128)) * 64
              + (128 + c.toNat % 64 - 128) = c.toNat := by omega
          simp only [List.cons_append, List.nil_append, if_neg hb0, if_neg hb0',
            if_neg hb0'', if_pos hb0''', if_pos hb123, hn]
          have hrange : 65536 ≤ c.toNat ∧ c.toNat < 1114112 := ⟨by omega, hhi⟩
          simp [hrange, char_ofNat_toNat]

theorem utf8Char_length_pos (c : Char) : 1 ≤ (utf8Char c).length := by
  simp only [utf8Char]
  split_ifs <;> simp

theorem utf8DecodeAux_char (c : Char) (bs : List Nat) (acc : List Char) (fuel : Nat) :
    utf8DecodeAux (fuel + 1) (utf8Char c ++ bs) acc = utf8DecodeAux fuel bs (c :: acc) := by
  obtain ⟨b0, t, hct, hone⟩ := utf8DecodeOne_char c bs
  rw [hct, List.cons_append]
  conv_lhs => rw [utf8DecodeAux.eq_def]
  simp [hone]

theorem utf8DecodeAux_encode (cs : List Char) :
    ∀ fuel acc, (cs.flatMap utf8Char).length ≤ fuel →
      utf8DecodeAux fuel (cs.flatMap utf8Char) acc = some ⟨acc.reverse ++ cs⟩ := by
  induction cs with
  | nil =>
    intro fuel acc _
    simp [utf8DecodeAux]
  | cons c cs ih =>
    intro fuel acc hf
    simp only [List.flatMap_cons] at hf ⊢
    have h1 : 1 ≤ (utf8Char c).length := utf8Char_length_pos c
    simp only [List.length_append] at hf
    cases fuel with
    | zero => omega
    | succ fuel =>
      rw [utf8DecodeAux_char, ih fuel _ (by omega)]
      simp

theorem utf8Decode_utf8Bytes (s : String) : utf8Decode (utf8Bytes s) = some s := by
  unfold utf8Decode utf8Bytes
  rw [utf8DecodeAux_encode _ _ _ (le_refl _)]
  simp [string_eta]

theorem serde_from_str_render (v : SValue) (hk : keysOk v = true) :
    serde_from_str ⟨renderChars v⟩ = .ok v := by
  unfold serde_from_str
  have hdata : (String.mk (renderChars v)).data = renderChars v := rfl
  rw [hdata]
  have hfuel : fuelOf v ≤ 4 * (renderChars v).length + 4 := by
    have := fuelOf_le_len v
    omega
  have hp := (parse_render_all (4 * (renderChars v).length + 4)).1 v [] hk hfuel
    noDigitHead_nil
  rw [List.append_nil] at hp
  rw [hp]

theorem text_from_json_ok (v : SValue) (hk : keysOk v = true) :
    Message.text_from_json v = .ok (.Text ⟨renderChars v⟩) := by
  unfold Message.text_from_json serde_to_string
  rw [if_pos hk]

theorem text_from_json_err (v : SValue) (hk : keysOk v = false) :
    Message.text_from_json v = .error (Error.ofSerde .keyMustBeString) := by
  unfold Message.text_from_json serde_to_string
  rw [if_neg (by simp [hk])]

theorem binary_from_json_ok (v : SValue) (hk : keysOk v = true) :
    Message.binary_from_json v = .ok (.Binary (utf8Bytes ⟨renderChars v⟩)) := by
  unfold Message.binary_from_json serde_to_vec serde_to_string
  rw [if_pos hk]

theorem binary_from_json_err (v : SValue) (hk : keysOk v = false) :
    Message.binary_from_json v = .error (Error.ofSerde .keyMustBeString) := by
  unfold Message.binary_from_json serde_to_vec serde_to_string
  rw [if_neg (by simp [hk])]

theorem json_Text_eq (s : String) :
    (Message.Text s).json
      = match serde_from_str s with
        | .ok v => .ok v
        | .error e => .error (Error.ofSerde e) := rfl

theorem json_Binary_eq (b : List Nat) :
    (Message.Binary b).json
      = match serde_from_slice b with
        | .ok v => .ok v
        | .error e => .error (Error.ofSerde e) := rfl

theorem json_Text_ok (s : String) (v : SValue) (h : serde_from_str s = .ok v) :
    (Message.Text s).json = .ok v := by
  rw [json_Text_eq, h]

theorem json_Binary_ok (b : List Nat) (v : SValue) (h : serde_from_slice b = .ok v) :
    (Message.Binary b).json = .ok v := by
  rw [json_Binary_eq, h]

theorem serde_from_slice_bytes (v : SValue) (hk : keysOk v = true) :
    serde_from_slice (utf8Bytes ⟨renderChars v⟩) = .ok v := by
  unfold serde_from_slice
  rw [utf8Decode_utf8Bytes]
  exact serde_from_str_render v hk

/-- C1: for every value `v` that serializes successfully (in particular,
`v` contains no maps with non-string keys), decoding the message produced
by `text_from_json v` yields `v` again, and likewise for
`binary_from_json v` — the round-trip law for both encoders composed with
decode. -/
theorem C1_encode_decode_roundtrip (v : SValue) :
    (∀ m, Message.text_from_json v = .ok m → m.json = .ok v) ∧
    (∀ m, Message.binary_from_json v = .ok m → m.json = .ok v) := by
  constructor
  · intro m hm
    cases hkk : keysOk v with
    | true =>
      rw [text_from_json_ok v hkk] at hm
      injection hm with hm'
      rw [← hm']
      exact json_Text_ok _ _ (serde_from_str_render v hkk)
    | false =>
      rw [text_from_json_err v hkk] at hm
      cases hm
  · intro m hm
    cases hkk : keysOk v with
    | true =>
      rw [binary_from_json_ok v hkk] at hm
      injection hm with hm'
      rw [← hm']
      exact json_Binary_ok _ _ (serde_from_slice_bytes v hkk)
    | false =>
      rw [binary_from_json_err v hkk] at hm
      cases hm

/-- Witness for C1 at the concrete value `{"a": 1}`, on both the text and
the binary path. -/
theorem C1_encode_decode_roundtrip_witness :
    (Message.Text "\x7b\"a\":1\x7d").json
      = .ok (SValue.map [(SKey.str "a", SValue.num 1)]) ∧
    (Message.Binary (utf8Bytes "\x7b\"a\":1\x7d")).json
      = .ok (SValue.map [(SKey.str "a", SValue.num 1)]) :=
  ⟨(C1_encode_decode_roundtrip _).1 (Message.Text "\x7b\"a\":1\x7d") rfl,
   (C1_encode_decode_roundtrip _).2 (Message.Binary (utf8Bytes "\x7b\"a\":1\x7d")) rfl⟩

/-- C2: decoding any message that is neither the text-body nor the
binary-body variant yields exactly the wrong-variant error
(`NeitherTextNorBinaryMessage`); the result is independent of the
variant's payload, so no JSON parsing of it is attempted. -/
theorem C2_wrong_variant (m : Message)
    (ht : ∀ s, m ≠ .Text s) (hb : ∀ b, m ≠ .Binary b) :
    m.json = .error (Error.ofJsonError JsonError.NeitherTextNorBinaryMessage) := by
  cases m with
  | Text s => exact absurd rfl (ht s)
  | Binary b => exact absurd rfl (hb b)
  | Ping b => rfl
  | Pong b => rfl
  | Close code reason => rfl

/-- Witness for C2 at a concrete ping message with a non-JSON payload. -/
theorem C2_wrong_variant_witness :
    (∀ s, Message.Ping [1, 2, 3] ≠ .Text s) ∧
    (∀ b, Message.Ping [1, 2, 3] ≠ .Binary b) ∧
    (Message.Ping [1, 2, 3]).json
      = .error (Error.ofJsonError JsonError.NeitherTextNorBinaryMessage) :=
  ⟨fun _ h => Message.noConfusion h, fun _ h => Message.noConfusion h,
   C2_wrong_variant (Message.Ping [1, 2, 3]) (fun _ h => Message.noConfusion h)
     (fun _ h => Message.noConfusion h)⟩

/-- C3: whenever both encoders succeed on `v`, the text encoder returns a
text message and the binary encoder a binary message whose byte content is
exactly the UTF-8 bytes of the text content. -/
theorem C3_cross_representation (v : SValue) (mt mb : Message)
    (ht : Message.text_from_json v = .ok mt)
    (hb : Message.binary_from_json v = .ok mb) :
    ∃ s, mt = .Text s ∧ mb = .Binary (utf8Bytes s) := by
  cases hkk : keysOk v with
  | true =>
    rw [text_from_json_ok v hkk] at ht
    rw [binary_from_json_ok v hkk] at hb
    injection ht with ht'
    injection hb with hb'
    exact ⟨⟨renderChars v⟩, ht'.symm, hb'.symm⟩
  | false =>
    rw [text_from_json_err v hkk] at ht
    cases ht

/-- Witness for C3 at `{"a": 1}`. -/
theorem C3_cross_representation_witness :
    ∃ s, Message.Text "\x7b\"a\":1\x7d" = Message.Text s
      ∧ Message.Binary (utf8Bytes "\x7b\"a\":1\x7d") = Message.Binary (utf8Bytes s) :=
  C3_cross_representation (SValue.map [(SKey.str "a", SValue.num 1)]) _ _ rfl rfl

/-- C4: when `text_from_json v` succeeds, the result is the text-body
variant whose content is exactly the JSON serialization of `v`; no other
variant is ever produced by this operation. -/
theorem C4_text_encoding (v : SValue) (m : Message)
    (h : Message.text_from_json v = .ok m) :
    ∃ s, serde_to_string v = .ok s ∧ m = .Text s := by
  cases hkk : keysOk v with
  | true =>
    rw [text_from_json_ok v hkk] at h
    injection h with h'
    refine ⟨⟨renderChars v⟩, ?_, h'.symm⟩
    unfold serde_to_string
    rw [if_pos hkk]
  | false =>
    rw [text_from_json_err v hkk] at h
    cases h

/-- Witness for C4 at `{"a": 1}`. -/
theorem C4_text_encoding_witness :
    ∃ s, serde_to_string (SValue.map [(SKey.str "a", SValue.num 1)]) = .ok s
      ∧ Message.Text "\x7b\"a\":1\x7d" = Message.Text s :=
  C4_text_encoding _ _ rfl

/-- C5: decoding a text or binary message whose content is not valid JSON
returns the decoding-failure kind wrapping the library's own error value,
and the wrong-variant error kind is never returned for a text or binary
message. -/
theorem C5_decode_failure (s : String) (b : List Nat) :
    (∀ e, serde_from_str s = .error e →
      (Message.Text s).json = .error (Error.ofSerde e)) ∧
    (∀ e, serde_from_slice b = .error e →
      (Message.Binary b).json = .error (Error.ofSerde e)) ∧
    (Message.Text s).json
      ≠ .error (Error.ofJsonError JsonError.NeitherTextNorBinaryMessage) ∧
    (Message.Binary b).json
      ≠ .error (Error.ofJsonError JsonError.NeitherTextNorBinaryMessage) := by
  refine ⟨?_, ?_, ?_, ?_⟩
  · intro e he
    rw [json_Text_eq, he]
  · intro e he
    rw [json_Binary_eq, he]
  · rw [json_Text_eq]
    cases serde_from_str s with
    | ok v => simp
    | error e => simp [Error.ofSerde, Error.ofJsonError]
  · rw [json_Binary_eq]
    cases serde_from_slice b with
    | ok v => simp
    | error e => simp [Error.ofSerde, Error.ofJsonError]

/-- Witness for C5 at the malformed text `{not json` and the invalid
UTF-8 byte string `[255]`. -/
theorem C5_decode_failure_witness :
    serde_from_str "\x7bnot json" = .error SerdeJsonError.invalidJson ∧
    (Message.Text "\x7bnot json").json = .error (Error.ofSerde SerdeJsonError.invalidJson) ∧
    serde_from_slice [255] = .error SerdeJsonError.invalidUtf8 ∧
    (Message.Binary [255]).json = .error (Error.ofSerde SerdeJsonError.invalidUtf8) :=
  ⟨rfl, (C5_decode_failure "\x7bnot json" [255]).1 _ rfl,
   rfl, (C5_decode_failure "\x7bnot json" [255]).2.1 _ rfl⟩

/-- C6: a value the serializer rejects (a map with a non-string — e.g.
integer — key) makes both encoders return the encoding-failure kind
wrapping the library's key-must-be-string error; the wrong-variant error
kind is never produced on the encode path. -/
theorem C6_encode_failure (v : SValue) (hk : keysOk v = false) :
    Message.text_from_json v = .error (Error.ofSerde SerdeJsonError.keyMustBeString) ∧
    Message.binary_from_json v
      = .error (Error.ofSerde SerdeJsonError.keyMustBeString) ∧
    (∀ w : SValue, Message.text_from_json w
      ≠ .error (Error.ofJsonError JsonError.NeitherTextNorBinaryMessage)) ∧
    (∀ w : SValue, Message.binary_from_json w
      ≠ .error (Error.ofJsonError JsonError.NeitherTextNorBinaryMessage)) := by
  refine ⟨text_from_json_err v hk, binary_from_json_err v hk, ?_, ?_⟩
  · intro w
    cases hkk : keysOk w with
    | true =>
      rw [text_from_json_ok w hkk]
      simp
    | false =>
      rw [text_from_json_err w hkk]
      simp [Error.ofSerde, Error.ofJsonError]
  · intro w
    cases hkk : keysOk w with
    | true =>
      rw [binary_from_json_ok w hkk]
      simp
    | false =>
      rw [binary_from_json_err w hkk]
      simp [Error.ofSerde, Error.ofJsonError]

/-- Witness for C6 at the integer-keyed map `{1: 2}`. -/
theorem C6_encode_failure_witness :
    keysOk (SValue.map [(SKey.int 1, SValue.num 2)]) = false ∧
    Message.text_from_json (SValue.map [(SKey.int 1, SValue.num 2)])
      = .error (Error.ofSerde SerdeJsonError.keyMustBeString) :=
  ⟨rfl, (C6_encode_failure (SValue.map [(SKey.int 1, SValue.num 2)]) rfl).1⟩

/-- C7: all three operations are total: on every input each returns a
`Result` value — an `ok` or a typed `error`; no failure escapes the result
type (the shallow embedding realizes them as total Lean functions into
`Except`, so no panic or abort is possible). -/
theorem C7_total (v : SValue) (m : Message) :
    ((∃ w, Message.text_from_json v = .ok w)
      ∨ (∃ e, Message.text_from_json v = .error e)) ∧
    ((∃ w, Message.binary_from_json v = .ok w)
      ∨ (∃ e, Message.binary_from_json v = .error e)) ∧
    ((∃ x, m.json = .ok x) ∨ (∃ e, m.json = .error e)) := by
  refine ⟨?_, ?_, ?_⟩
  · cases h : Message.text_from_json v with
    | ok w => exact Or.inl ⟨w, rfl⟩
    | error e => exact Or.inr ⟨e, rfl⟩
  · cases h : Message.binary_from_json v with
    | ok w => exact Or.inl ⟨w, rfl⟩
    | error e => exact Or.inr ⟨e, rfl⟩
  · cases h : m.json with
    | ok x => exact Or.inl ⟨x, rfl⟩
    | error e => exact Or.inr ⟨e, rfl⟩

/-- C8: each operation is a deterministic pure function of its input:
equal inputs give equal (byte-identical) results, and no call touches any
shared state (the operations are closed Lean functions of their
arguments). -/
theorem C8_deterministic (v w : SValue) (m m' : Message) (hv : v = w) (hm : m = m') :
    Message.text_from_json v = Message.text_from_json w ∧
    Message.binary_from_json v = Message.binary_from_json w ∧
    m.json = m'.json := by
  subst hv
  subst hm
  exact ⟨rfl, rfl, rfl⟩

/-- Witness for C8 at concrete inputs. -/
theorem C8_deterministic_witness :
    Message.text_from_json (SValue.num 1) = Message.text_from_json (SValue.num 1) ∧
    Message.binary_from_json (SValue.num 1)
      = Message.binary_from_json (SValue.num 1) ∧
    (Message.Text "1").json = (Message.Text "1").json :=
  C8_deterministic (SValue.num 1) (SValue.num 1) (Message.Text "1") (Message.Text "1")
    rfl rfl

/-- C9: encoding the typed record `{"a": 1}` as text yields exactly the
text message with content `{"a":1}`, and decoding that message back at
the record type yields a value equal to the original. -/
theorem C9_concrete_scenario :
    Message.text_from_json (RecA.toSValue ⟨1⟩) = .ok (Message.Text "\x7b\"a\":1\x7d") ∧
    Message.jsonAs RecA.fromSValue (Message.Text "\x7b\"a\":1\x7d") = .ok ⟨1⟩ :=
  ⟨rfl, rfl⟩

/-- C10: for every string and every target type, decoding a text-body
message equals decoding the binary-body message holding the string's
UTF-8 bytes — the two decode paths are equivalent embeddings of the same
JSON parse. -/
theorem C10_text_binary_agree {T : Type} (fromS : SValue → Option T) (s : String) :
    (Message.Binary (utf8Bytes s)).json = (Message.Text s).json ∧
    Message.jsonAs fromS (Message.Binary (utf8Bytes s))
      = Message.jsonAs fromS (Message.Text s) := by
  have hj : (Message.Binary (utf8Bytes s)).json = (Message.Text s).json := by
    rw [json_Binary_eq, json_Text_eq]
    unfold serde_from_slice
    rw [utf8Decode_utf8Bytes]
  refine ⟨hj, ?_⟩
  unfold Message.jsonAs
  rw [hj]

end RWJson
